import Mathlib

/-!
Verification development for the whisperwave audio core.

The embedding models the two core source files:
* src/lib/audio-processor.ts — LMS adaptive filter, post-processing,
  per-channel orchestration (processAudio);
* the noise-classifier component — feature extraction and the
  simulated model prediction over the six noise archetypes.

Samples are modelled as exact rationals (idealising IEEE floats), arrays
as lists, and the two nondeterministic draws of the classifier
(the spectral-flatness draw and the per-archetype base-score draws) as
explicit parameters.
-/

namespace Whisperwave

/-- A single channel of audio samples. -/
abbrev Signal := List ℚ

/-- An AudioBuffer: a sample rate and one sample list per channel. -/
structure AudioBuffer where
  sampleRate : ℚ
  channels : List Signal

/-- buffer.getChannelData(i): the samples of channel i. -/
def getChannelData (b : AudioBuffer) (i : ℕ) : Signal :=
  b.channels.getD i []

/-! ## LMS adaptive filter (applyLMSFilter, src/lib/audio-processor.ts) -/

/-- The mutable state of one applyLMSFilter invocation: the weight
vector, the delay-line buffer (both allocated with length L and filled
with zeros), and the prevOutput scalar. -/
structure LMSState where
  weights : List ℚ
  buffer : List ℚ
  prevOutput : ℚ

/-- One iteration of the applyLMSFilter sample loop at index n:
shift the delay line (the j-loop plus the write to index 0, which on a
zero-length array is a no-op), compute y over the taps guarded by
n - k >= 0, compute the error e = x(n) + prevOutput, store y as the next
prevOutput, and update the weights under the same n - k >= 0 guard.
Returns the emitted output sample e and the successor state. -/
def lmsStep (stepSize : ℚ) (n : ℕ) (x : ℚ) (s : LMSState) : ℚ × LMSState :=
  let buf := (x :: s.buffer).take s.buffer.length
  let y := (List.range s.weights.length).foldl
    (fun a k => if k ≤ n then a + s.weights.getD k 0 * buf.getD k 0 else a) 0
  let e := x + s.prevOutput
  let w := (List.range s.weights.length).map
    (fun k => if k ≤ n then s.weights.getD k 0 - stepSize * e * buf.getD k 0
      else s.weights.getD k 0)
  (e, ⟨w, buf, y⟩)

/-- The applyLMSFilter sample loop: runs lmsStep at indices n, n+1, ...
over the remaining input samples, emitting one output sample each. -/
def lmsLoop (stepSize : ℚ) : ℕ → LMSState → List ℚ → List ℚ
  | _, _, [] => []
  | n, s, x :: xs =>
    let p := lmsStep stepSize n x s
    p.1 :: lmsLoop stepSize (n + 1) p.2 xs

/-- The LMS recursion of applyLMSFilter (the spec section 4.3 runLMS):
zero-initialised weights and delay line, prevOutput = 0, then the sample
loop over the whole input. -/
def runLMS (stepSize : ℚ) (filterLength : ℕ) (input : Signal) : Signal :=
  lmsLoop stepSize 0
    ⟨List.replicate filterLength 0, List.replicate filterLength 0, 0⟩ input

/-! ## Post-processing (applyPostProcessing, src/lib/audio-processor.ts) -/

/-- The moving-average pass: windowSize = 3; the loop runs for
windowSize <= i < length - windowSize and replaces signal[i] by the 7-tap
box average of the copied original samples temp[i-3..i+3]; all other
indices keep their original value. -/
def movingAverage (s : Signal) : Signal :=
  (List.range s.length).map (fun i =>
    if 3 ≤ i ∧ i + 3 < s.length then
      ((List.range 7).foldl (fun a j => a + s.getD (i + j - 3) 0) 0) / 7
    else s.getD i 0)

/-- The maxAmplitude scan: fold of Math.max(acc, Math.abs(sample))
starting from 0. -/
def peakAmplitude (s : Signal) : ℚ :=
  s.foldl (fun m x => max m |x|) 0

/-- applyPostProcessing: moving average, then if the peak amplitude
exceeds 0.9, scale every sample by 0.9 / peak. -/
def applyPostProcessing (s : Signal) : Signal :=
  let sm := movingAverage s
  let maxAmplitude := peakAmplitude sm
  if maxAmplitude > 0.9 then sm.map (fun x => x * (0.9 / maxAmplitude)) else sm

/-- applyLMSFilter writes the LMS recursion output into the output
channel and then post-processes it in place. -/
def applyLMSFilter (stepSize : ℚ) (filterLength : ℕ) (input : Signal) : Signal :=
  applyPostProcessing (runLMS stepSize filterLength input)

/-! ## Orchestration (processAudio, src/lib/audio-processor.ts) -/

/-- The switch on noiseType.toLowerCase() selecting (stepSize, filterLength). -/
def lmsParams (noiseType : String) : ℚ × ℕ :=
  match noiseType.toLower with
  | "lawnmower" => (0.01, 32)
  | "traffic" => (0.005, 128)
  | "construction" => (0.008, 64)
  | "fan/hvac" => (0.003, 256)
  | _ => (0.01, 128)

/-- Processing of one channel inside the processAudio channel loop. -/
def processChannel (noiseType : String) (input : Signal) : Signal :=
  applyLMSFilter (lmsParams noiseType).1 (lmsParams noiseType).2 input

/-- processAudio: allocate an output buffer with the same channel count,
length and sample rate, and fill each channel independently with the
filtered and post-processed input channel. -/
def processAudioBuffer (b : AudioBuffer) (noiseType : String) : AudioBuffer :=
  ⟨b.sampleRate, b.channels.map (processChannel noiseType)⟩

/-! ## Feature extraction (extractFeatures, noise-classifier component) -/

/-- The five scalar features computed by extractFeatures. -/
@[ext]
structure FeatureVector where
  energy : ℚ
  zeroCrossings : ℚ
  spectralCentroid : ℚ
  spectralFlatness : ℚ
  periodicity : ℚ

/-- The zero-crossing count: the loop for i = 1 .. length-1 counting the
indices where channelData[i] and channelData[i-1] lie on opposite sides
of zero (zero counted as non-negative). -/
def zeroCrossCount (s : Signal) : ℕ :=
  (List.range' 1 (s.length - 1)).foldl
    (fun c i =>
      if (s.getD i 0 ≥ 0 ∧ s.getD (i - 1) 0 < 0) ∨
          (s.getD i 0 < 0 ∧ s.getD (i - 1) 0 ≥ 0) then c + 1 else c) 0

/-- The inner correlation loop at a fixed lag: for i = 0 .. 1023,
accumulate channelData[i] * channelData[i+lag] whenever i + lag is in
bounds. -/
def correlationAt (s : Signal) (lag : ℕ) : ℚ :=
  (List.range 1024).foldl
    (fun a i => if i + lag < s.length then a + s.getD i 0 * s.getD (i + lag) 0 else a) 0

/-- The outer periodicity loop: sumCorrelation accumulates the absolute
correlation for lag = 1 .. 1023 (frameSize = 1024). -/
def sumCorrelation (s : Signal) : ℚ :=
  (List.range' 1 1023).foldl (fun a lag => a + |correlationAt s lag|) 0

/-- extractFeatures on the first channel's data. The spectral-flatness
draw Math.random() is passed in as flatRand. -/
def extractFeatures (s : Signal) (flatRand : ℚ) : FeatureVector :=
  let energy := s.foldl (fun a v => a + v * v) 0 / (s.length : ℚ)
  let zc := (zeroCrossCount s : ℚ) / (s.length : ℚ)
  { energy := energy
    zeroCrossings := zc
    spectralCentroid := zc * 10000
    spectralFlatness := flatRand * 0.5 + 0.2
    periodicity := sumCorrelation s / 1024 }

/-! ## Classifier (simulateModelPrediction and classifyNoise) -/

/-- The fixed archetype enumeration NOISE_TYPES. -/
def NOISE_TYPES : List String :=
  ["Lawnmower", "Traffic", "Construction", "Fan/HVAC", "Crowd", "Wind"]

/-- The switch inside simulateModelPrediction: the threshold-predicate
bonus added to the base score of each archetype. -/
def archetypeBonus (f : FeatureVector) : String → ℚ
  | "Lawnmower" => if f.energy > 0.1 ∧ f.periodicity > 0.5 then 0.5 else 0
  | "Traffic" =>
    if f.energy > 0.05 ∧ f.energy < 0.2 ∧ f.periodicity < 0.3 then 0.4 else 0
  | "Construction" => if f.energy > 0.15 ∧ f.zeroCrossings > 0.3 then 0.3 else 0
  | "Fan/HVAC" =>
    if f.energy < 0.1 ∧ f.zeroCrossings < 0.2 ∧ f.periodicity > 0.6 then 0.6 else 0
  | "Crowd" => if f.periodicity < 0.2 then 0.3 else 0
  | "Wind" => if f.energy < 0.15 ∧ f.zeroCrossings < 0.15 then 0.4 else 0
  | _ => 0

/-- Number.parseFloat(score.toFixed(2)): rounding to two decimal places
(round-half-up on the exact value). -/
def round2 (q : ℚ) : ℚ :=
  ((Int.floor (q * 100 + 1 / 2) : ℤ) : ℚ) / 100

/-- simulateModelPrediction: for each archetype in NOISE_TYPES order,
score = base draw + threshold bonus, clamped by Math.min(1, score) and
rounded to two decimals. The base draws 0.1 + Math.random() * 0.2 are
passed in as base i for the i-th archetype. -/
def simulateModelPrediction (f : FeatureVector) (base : ℕ → ℚ) :
    List (String × ℚ) :=
  NOISE_TYPES.enum.map
    (fun p => (p.2, round2 (min 1 (base p.1 + archetypeBonus f p.2))))

/-- The arg-max scan of classifyNoise: highestScore starts at 0,
detectedType at the empty string, and an entry replaces the running pair
only when its score is strictly greater. -/
def selectLabel (scores : List (String × ℚ)) : String × ℚ :=
  scores.foldl (fun acc p => if p.2 > acc.2 then p else acc) ("", 0)

/-- classifyNoise: extract the features of channel 0, score the six
archetypes, and select the label with the maximal score. Returns the
feature vector, the confidence list and the selected label. -/
def classifyNoise (b : AudioBuffer) (flatRand : ℚ) (base : ℕ → ℚ) :
    FeatureVector × List (String × ℚ) × String :=
  let f := extractFeatures (getChannelData b 0) flatRand
  let scores := simulateModelPrediction f base
  (f, scores, (selectLabel scores).1)

/-! ## Spec-side rendering of the LMS state machine (claim C1)

The claim describes the per-sample recursion without the redundant
n - k >= 0 guards of the source: the delay line is shifted right with
the current sample inserted at index 0, y is the full dot product of
weights and delay line, and every weight is updated. -/

/-- One step of the state machine exactly as the claim words it. -/
def specStep (mu x : ℚ) (s : LMSState) : ℚ × LMSState :=
  let d := x :: s.buffer.dropLast
  let y := ((List.range s.weights.length).map
    (fun k => s.weights.getD k 0 * d.getD k 0)).sum
  let e := x + s.prevOutput
  let w := (List.range s.weights.length).map
    (fun k => s.weights.getD k 0 - mu * e * d.getD k 0)
  (e, ⟨w, d, y⟩)

/-- The claim's state machine run over the input samples. -/
def specLoop (mu : ℚ) : LMSState → List ℚ → List ℚ
  | _, [] => []
  | s, x :: xs =>
    let p := specStep mu x s
    p.1 :: specLoop mu p.2 xs

/-- The claim's adaptive filter: zeros(L) weights and delay line,
prevOutput 0, then the per-sample machine. -/
def specRunLMS (mu : ℚ) (L : ℕ) (input : Signal) : Signal :=
  specLoop mu ⟨List.replicate L 0, List.replicate L 0, 0⟩ input

/-! ## Helper lemmas and claim theorems -/


theorem foldl_add_map {α : Type} (g : α → ℚ) (c : ℚ) (l : List α) :
    l.foldl (fun a k => a + g k) c = c + (l.map g).sum := by
  induction l generalizing c with
  | nil => simp
  | cons x xs ih => simp [ih]; ring

theorem foldl_guard_sum (P : ℕ → Prop) [DecidablePred P] (g : ℕ → ℚ) (c : ℚ)
    (l : List ℕ) :
    l.foldl (fun a k => if P k then a + g k else a) c
      = c + (l.map (fun k => if P k then g k else 0)).sum := by
  induction l generalizing c with
  | nil => simp
  | cons x xs ih =>
    by_cases h : P x
    · simp [h, ih]
      ring
    · simp [h, ih]

theorem listRange_map_sum (n : ℕ) (f : ℕ → ℚ) :
    ((List.range n).map f).sum = ∑ i in Finset.range n, f i := by
  induction n with
  | zero => simp
  | succ n ih => rw [List.range_succ, Finset.sum_range_succ]; simp [ih]

theorem foldl_count_zero (P : ℕ → Prop) [DecidablePred P] (l : List ℕ)
    (h : ∀ i ∈ l, ¬ P i) :
    (l.foldl (fun c i => if P i then c + 1 else c) 0) = 0 := by
  induction l with
  | nil => rfl
  | cons x xs ih =>
    have hx : ¬ P x := h x (List.mem_cons_self x xs)
    simp only [List.foldl_cons, if_neg hx]
    exact ih (fun i hi => h i (List.mem_cons_of_mem x hi))

theorem peakAmplitude_foldl_le (c b : ℚ) (l : List ℚ) :
    l.foldl (fun m x => max m |x|) c ≤ b ↔ c ≤ b ∧ ∀ x ∈ l, |x| ≤ b := by
  induction l generalizing c with
  | nil => simp
  | cons x xs ih =>
    simp only [List.foldl_cons, ih, max_le_iff, List.mem_cons]
    constructor
    · rintro ⟨⟨h1, h2⟩, h3⟩
      exact ⟨h1, fun y hy => hy.elim (fun e => e ▸ h2) (h3 y)⟩
    · rintro ⟨h1, h2⟩
      exact ⟨⟨h1, h2 x (Or.inl rfl)⟩, fun y hy => h2 y (Or.inr hy)⟩

theorem le_peakAmplitude (l : List ℚ) (x : ℚ) (hx : x ∈ l) :
    |x| ≤ peakAmplitude l := by
  have h := (peakAmplitude_foldl_le 0 (peakAmplitude l) l).mp le_rfl
  exact h.2 x hx

theorem peakAmplitude_nonneg (l : List ℚ) : 0 ≤ peakAmplitude l := by
  have h := (peakAmplitude_foldl_le 0 (peakAmplitude l) l).mp le_rfl
  exact h.1

theorem peakAmplitude_le (l : List ℚ) (b : ℚ) (hb : 0 ≤ b)
    (h : ∀ x ∈ l, |x| ≤ b) : peakAmplitude l ≤ b :=
  (peakAmplitude_foldl_le 0 b l).mpr ⟨hb, h⟩

theorem postProcessing_cases (s : Signal) :
    (0.9 < peakAmplitude (movingAverage s) →
      applyPostProcessing s
        = (movingAverage s).map (fun x => x * (0.9 / peakAmplitude (movingAverage s)))) ∧
    (peakAmplitude (movingAverage s) ≤ 0.9 → applyPostProcessing s = movingAverage s) := by
  constructor
  · intro h
    simp only [applyPostProcessing, if_pos (show peakAmplitude (movingAverage s) > 0.9 from h)]
  · intro h
    simp only [applyPostProcessing, if_neg (not_lt.mpr h)]

theorem postProcessing_peak_le (s : Signal) :
    peakAmplitude (applyPostProcessing s) ≤ 0.9 := by
  by_cases h : peakAmplitude (movingAverage s) > 0.9
  · have hpos : (0 : ℚ) < peakAmplitude (movingAverage s) := by linarith
    rw [(postProcessing_cases s).1 h]
    apply peakAmplitude_le _ _ (by norm_num)
    intro x hx
    rcases List.mem_map.mp hx with ⟨y, hy, rfl⟩
    have h1 : |y| ≤ peakAmplitude (movingAverage s) := le_peakAmplitude _ y hy
    have h2 : (0:ℚ) ≤ 0.9 / peakAmplitude (movingAverage s) := by positivity
    rw [abs_mul, abs_of_nonneg h2]
    calc |y| * (0.9 / peakAmplitude (movingAverage s))
        ≤ peakAmplitude (movingAverage s) * (0.9 / peakAmplitude (movingAverage s)) := by
          apply mul_le_mul_of_nonneg_right h1 h2
      _ = 0.9 := by field_simp
  · rw [(postProcessing_cases s).2 (not_lt.mp h)]
    exact not_lt.mp h

theorem lmsLoop_length (mu : ℚ) (xs : List ℚ) :
    ∀ (n : ℕ) (s : LMSState), (lmsLoop mu n s xs).length = xs.length := by
  induction xs with
  | nil => intro n s; rfl
  | cons x xs ih => intro n s; simp [lmsLoop, ih]

theorem runLMS_length (mu : ℚ) (L : ℕ) (input : Signal) :
    (runLMS mu L input).length = input.length := lmsLoop_length mu input 0 _

theorem movingAverage_length (s : Signal) :
    (movingAverage s).length = s.length := by
  simp [movingAverage]

theorem applyPostProcessing_length (s : Signal) :
    (applyPostProcessing s).length = s.length := by
  by_cases h : peakAmplitude (movingAverage s) > 0.9
  · rw [(postProcessing_cases s).1 h]
    simp [movingAverage_length]
  · rw [(postProcessing_cases s).2 (not_lt.mp h)]
    exact movingAverage_length s

theorem processChannel_length (t : String) (input : Signal) :
    (processChannel t input).length = input.length := by
  unfold processChannel applyLMSFilter
  rw [applyPostProcessing_length, runLMS_length]

/-- Claim C2: for every input buffer and label, the processed buffer has
the same channel count, the same sample rate, and the same per-channel
length as the input. -/
theorem shape_preservation (b : AudioBuffer) (t : String) :
    (processAudioBuffer b t).channels.length = b.channels.length ∧
    (processAudioBuffer b t).sampleRate = b.sampleRate ∧
    ∀ i : ℕ, ((processAudioBuffer b t).channels.getD i []).length
      = (b.channels.getD i []).length := by
  refine ⟨by simp [processAudioBuffer], rfl, ?_⟩
  intro i
  by_cases h : i < b.channels.length
  · have h2 : i < (b.channels.map (processChannel t)).length := by simpa using h
    simp only [processAudioBuffer]
    rw [List.getD_eq_getElem _ _ h2, List.getD_eq_getElem _ _ h]
    simp [processChannel_length]
  · have h2 : ¬ i < (b.channels.map (processChannel t)).length := by simpa using h
    simp only [processAudioBuffer]
    rw [List.getD_eq_default _ _ (not_lt.mp h2), List.getD_eq_default _ _ (not_lt.mp h)]

/-- Claim C9: channels are processed independently with fresh state:
channel i of the processed buffer equals the single channel obtained by
processing a one-channel buffer holding only channel i of the input. -/
theorem channel_independence (b : AudioBuffer) (t : String) (i : ℕ)
    (h : i < b.channels.length) :
    (processAudioBuffer b t).channels.getD i []
      = getChannelData (processAudioBuffer ⟨b.sampleRate, [getChannelData b i]⟩ t) 0 := by
  have h2 : i < (b.channels.map (processChannel t)).length := by simpa using h
  simp only [processAudioBuffer, getChannelData, List.map_cons, List.map_nil,
    List.getD_cons_zero]
  rw [List.getD_eq_getElem _ _ h2, List.getD_eq_getElem _ _ h]
  simp

-- C4 zero signal
theorem getD_replicate_zero (L k : ℕ) : (List.replicate L (0:ℚ)).getD k 0 = 0 := by
  induction L generalizing k with
  | zero => simp
  | succ L ih => cases k <;> simp [List.replicate, ih]

theorem lmsStep_zero (mu : ℚ) (n : ℕ) (L : ℕ) :
    lmsStep mu n 0 ⟨List.replicate L 0, List.replicate L 0, 0⟩
      = (0, ⟨List.replicate L 0, List.replicate L 0, 0⟩) := by
  have hbuf : (((0:ℚ) :: List.replicate L 0).take L) = List.replicate L 0 := by
    rw [show ((0:ℚ) :: List.replicate L 0) = List.replicate (L+1) (0:ℚ) from rfl,
      List.take_replicate, min_eq_left (Nat.le_succ L)]
  simp only [lmsStep, List.length_replicate, hbuf]
  have hw : (List.range L).map
      (fun k => if k ≤ n then
        (List.replicate L (0:ℚ)).getD k 0 - mu * ((0:ℚ) + 0) * (List.replicate L (0:ℚ)).getD k 0
        else (List.replicate L (0:ℚ)).getD k 0) = List.replicate L 0 := by
    refine List.eq_replicate_iff.mpr ⟨by simp, ?_⟩
    intro x hx
    rcases List.mem_map.mp hx with ⟨k, hk, rfl⟩
    rw [getD_replicate_zero]
    split <;> ring
  have hy : (List.range L).foldl
      (fun a k => if k ≤ n then
        a + (List.replicate L (0:ℚ)).getD k 0 * (List.replicate L (0:ℚ)).getD k 0 else a) 0
      = 0 := by
    rw [foldl_guard_sum]
    rw [List.sum_eq_zero, add_zero]
    intro x hx
    rcases List.mem_map.mp hx with ⟨k, hk, rfl⟩
    rw [getD_replicate_zero]
    split <;> ring
  rw [hw, hy]
  norm_num

theorem lmsLoop_zero (mu : ℚ) (L : ℕ) (N : ℕ) :
    ∀ n : ℕ, lmsLoop mu n ⟨List.replicate L 0, List.replicate L 0, 0⟩
      (List.replicate N 0) = List.replicate N 0 := by
  induction N with
  | zero => intro n; rfl
  | succ N ih =>
    intro n
    show lmsLoop mu n _ ((0:ℚ) :: List.replicate N 0) = _
    rw [lmsLoop, lmsStep_zero]
    simp only [List.replicate]
    rw [ih (n+1)]

theorem runLMS_zero (mu : ℚ) (L N : ℕ) :
    runLMS mu L (List.replicate N 0) = List.replicate N 0 :=
  lmsLoop_zero mu L N 0

theorem movingAverage_zero (N : ℕ) :
    movingAverage (List.replicate N 0) = List.replicate N (0:ℚ) := by
  refine List.eq_replicate_iff.mpr ⟨by simp [movingAverage_length], ?_⟩
  intro x hx
  rcases List.mem_map.mp hx with ⟨i, hi, rfl⟩
  split
  · rw [foldl_add_map]
    rw [List.sum_eq_zero, add_zero, zero_div]
    intro x hx
    rcases List.mem_map.mp hx with ⟨j, hj, rfl⟩
    exact getD_replicate_zero N _
  · exact getD_replicate_zero N i

theorem peakAmplitude_zero (N : ℕ) :
    peakAmplitude (List.replicate N (0:ℚ)) = 0 := by
  have h1 : peakAmplitude (List.replicate N (0:ℚ)) ≤ 0 :=
    peakAmplitude_le _ 0 le_rfl (by intro x hx; rw [List.eq_of_mem_replicate hx]; simp)
  exact le_antisymm h1 (peakAmplitude_nonneg _)

theorem applyPostProcessing_zero (N : ℕ) :
    applyPostProcessing (List.replicate N 0) = List.replicate N (0:ℚ) := by
  have h : peakAmplitude (movingAverage (List.replicate N 0)) ≤ 0.9 := by
    rw [movingAverage_zero, peakAmplitude_zero]; norm_num
  rw [(postProcessing_cases _).2 h, movingAverage_zero]

/-- Claim C4: on the all-zero input of any length N and for any step size
and filter length, the LMS recursion emits the all-zero output (also after
post-processing), and from the zero state every step emits error 0 and
leaves the weights and the delay line zero. -/
theorem zero_signal (mu : ℚ) (L N : ℕ) :
    runLMS mu L (List.replicate N 0) = List.replicate N 0 ∧
    applyLMSFilter mu L (List.replicate N 0) = List.replicate N 0 ∧
    ∀ n : ℕ, lmsStep mu n 0 ⟨List.replicate L 0, List.replicate L 0, 0⟩
      = (0, ⟨List.replicate L 0, List.replicate L 0, 0⟩) := by
  refine ⟨runLMS_zero mu L N, ?_, fun n => lmsStep_zero mu n L⟩
  unfold applyLMSFilter
  rw [runLMS_zero, applyPostProcessing_zero]

theorem movingAverage_getD (s : Signal) (i : ℕ) (h : i < s.length) :
    (movingAverage s).getD i 0
      = if 3 ≤ i ∧ i + 3 < s.length then
          ((List.range 7).foldl (fun a j => a + s.getD (i + j - 3) 0) 0) / 7
        else s.getD i 0 := by
  have h2 : i < ((List.range s.length).map (fun i =>
      if 3 ≤ i ∧ i + 3 < s.length then
        ((List.range 7).foldl (fun a j => a + s.getD (i + j - 3) 0) 0) / 7
      else s.getD i 0)).length := by simpa using h
  rw [movingAverage, List.getD_eq_getElem _ _ h2]
  simp

/-- Claim C6: the moving-average pass preserves the length, leaves the
first three and last three samples unchanged, and replaces each interior
sample at index i (3 <= i <= length-4) by the 7-tap centered box average
of the original, pre-averaging samples. -/
theorem movingAverage_frame_effect (s : Signal) :
    (movingAverage s).length = s.length ∧
    (∀ i : ℕ, i < s.length → (i < 3 ∨ s.length ≤ i + 3) →
      (movingAverage s).getD i 0 = s.getD i 0) ∧
    (∀ i : ℕ, 3 ≤ i → i + 3 < s.length →
      (movingAverage s).getD i 0
        = (∑ j in Finset.range 7, s.getD (i + j - 3) 0) / 7) := by
  refine ⟨movingAverage_length s, ?_, ?_⟩
  · intro i hi hb
    rw [movingAverage_getD s i hi, if_neg]
    rintro ⟨h3, h4⟩
    rcases hb with hb | hb
    · exact absurd h3 (not_le.mpr hb)
    · exact absurd h4 (not_lt.mpr hb)
  · intro i h3 h4
    rw [movingAverage_getD s i (by omega), if_pos ⟨h3, h4⟩,
      foldl_add_map, zero_add, listRange_map_sum]

theorem correlationAt_eq_sum (s : Signal) (lag : ℕ) :
    correlationAt s lag
      = ∑ i in Finset.range 1024,
          if i + lag < s.length then s.getD i 0 * s.getD (i + lag) 0 else 0 := by
  rw [correlationAt, foldl_guard_sum, zero_add, listRange_map_sum]

theorem sumCorrelation_eq_sum (s : Signal) :
    sumCorrelation s = ∑ lag in Finset.Ico 1 1024, |correlationAt s lag| := by
  rw [sumCorrelation, foldl_add_map, zero_add, List.range'_eq_map_range,
    List.map_map, listRange_map_sum, Finset.sum_Ico_eq_sum_range]
  norm_num

/-- Claim C8: the periodicity feature equals the sum over lag in [1, 1024)
of the absolute value of the sum over i in [0, 1024) of
signal[i] * signal[i+lag], keeping only the terms with i + lag in bounds,
divided by 1024; signals shorter than 1024 samples just contribute fewer
terms. -/
theorem periodicity_spec_formula (s : Signal) (flat : ℚ) :
    (extractFeatures s flat).periodicity
      = (∑ lag in Finset.Ico 1 1024,
          |∑ i in Finset.range 1024,
            if i + lag < s.length then s.getD i 0 * s.getD (i + lag) 0 else 0|) / 1024 := by
  show sumCorrelation s / 1024 = _
  rw [sumCorrelation_eq_sum,
    Finset.sum_congr rfl (fun lag _ => by rw [correlationAt_eq_sum s lag])]

/-- Claim C10: classification reads only channel 0: two buffers with the
same channel 0 and the same random draws yield the identical feature
vector, confidence list and selected label, whatever the other channels
or the sample rate are. -/
theorem classification_uses_only_channel0 (b1 b2 : AudioBuffer) (flat : ℚ) (base : ℕ → ℚ)
    (h : getChannelData b1 0 = getChannelData b2 0) :
    classifyNoise b1 flat base = classifyNoise b2 flat base := by
  unfold classifyNoise
  rw [h]

-- C1: source loop refines the claim state machine
theorem shift_getD_zero (x : ℚ) (b : List ℚ) (n k : ℕ)
    (hz : ∀ j, n ≤ j → b.getD j 0 = 0) (hk : n + 1 ≤ k) :
    ((x :: b).take b.length).getD k 0 = 0 := by
  rw [List.getD_eq_getElem?_getD, List.getElem?_take]
  by_cases h : k < b.length
  · rw [if_pos h]
    obtain ⟨k, rfl⟩ : ∃ m, k = m + 1 := ⟨k - 1, by omega⟩
    rw [List.getElem?_cons_succ]
    have := hz k (by omega)
    rwa [List.getD_eq_getElem?_getD] at this
  · rw [if_neg h]
    rfl

theorem shift_eq_dropLast (x : ℚ) (b : List ℚ) (hb : 1 ≤ b.length) :
    (x :: b).take b.length = x :: b.dropLast := by
  cases b with
  | nil => simp at hb
  | cons y t =>
    rw [List.dropLast_eq_take]
    simp [List.take_succ_cons]

theorem lmsStep_eq_specStep (mu : ℚ) (n : ℕ) (x : ℚ) (s : LMSState)
    (hb : 1 ≤ s.buffer.length)
    (hz : ∀ j, n ≤ j → s.buffer.getD j 0 = 0) :
    lmsStep mu n x s = specStep mu x s := by
  have hshift := shift_eq_dropLast x s.buffer hb
  have hzero : ∀ k, n + 1 ≤ k → (x :: s.buffer.dropLast).getD k 0 = 0 := by
    intro k hk
    rw [← hshift]
    exact shift_getD_zero x s.buffer n k hz hk
  unfold lmsStep specStep
  simp only [hshift]
  refine Prod.ext rfl ?_
  show LMSState.mk _ _ _ = LMSState.mk _ _ _
  congr 1
  · refine List.map_congr_left ?_
    intro k hk
    by_cases h : k ≤ n
    · rw [if_pos h]
    · rw [if_neg h, hzero k (by omega)]
      ring
  · rw [foldl_guard_sum, zero_add]
    refine congrArg List.sum (List.map_congr_left ?_)
    intro k hk
    by_cases h : k ≤ n
    · rw [if_pos h]
    · rw [if_neg h, hzero k (by omega)]
      ring

theorem lmsLoop_eq_specLoop (mu : ℚ) (xs : List ℚ) :
    ∀ (n : ℕ) (s : LMSState), 1 ≤ s.buffer.length →
    (∀ j, n ≤ j → s.buffer.getD j 0 = 0) →
    lmsLoop mu n s xs = specLoop mu s xs := by
  induction xs with
  | nil => intro n s _ _; rfl
  | cons x xs ih =>
    intro n s hb hz
    show (lmsStep mu n x s).1 :: lmsLoop mu (n+1) (lmsStep mu n x s).2 xs
      = (specStep mu x s).1 :: specLoop mu (specStep mu x s).2 xs
    have hstep := lmsStep_eq_specStep mu n x s hb hz
    have hb2 : 1 ≤ ((lmsStep mu n x s).2).buffer.length := by
      show 1 ≤ ((x :: s.buffer).take s.buffer.length).length
      simp
      omega
    have hz2 : ∀ j, n + 1 ≤ j → ((lmsStep mu n x s).2).buffer.getD j 0 = 0 := by
      intro j hj
      exact shift_getD_zero x s.buffer n j hz hj
    rw [← hstep, ih (n+1) (lmsStep mu n x s).2 hb2 hz2]

theorem runLMS_eq_specRunLMS (mu : ℚ) (L : ℕ) (input : Signal) (hL : 1 ≤ L) :
    runLMS mu L input = specRunLMS mu L input := by
  unfold runLMS specRunLMS
  refine lmsLoop_eq_specLoop mu input 0 _ (by simpa using hL) ?_
  intro j _
  exact getD_replicate_zero L j

theorem round2_mono {q r : ℚ} (h : q ≤ r) : round2 q ≤ round2 r := by
  unfold round2
  have h2 : Int.floor (q * 100 + 1/2) ≤ Int.floor (r * 100 + 1/2) :=
    Int.floor_le_floor (by linarith)
  have h3 : ((Int.floor (q * 100 + 1/2) : ℤ) : ℚ) ≤ ((Int.floor (r * 100 + 1/2) : ℤ) : ℚ) := by
    exact_mod_cast h2
  linarith

theorem round2_exists_nat (q : ℚ) (h0 : 0 ≤ q) (h1 : q ≤ 1) :
    ∃ k : ℕ, k ≤ 100 ∧ round2 q = (k : ℚ) / 100 := by
  have hf0 : (0:ℤ) ≤ Int.floor (q * 100 + 1/2) := by
    apply Int.le_floor.mpr
    push_cast
    linarith
  have hf1 : Int.floor (q * 100 + 1/2) ≤ 100 := by
    have : Int.floor (q * 100 + 1/2) ≤ Int.floor ((201 : ℚ)/2) :=
      Int.floor_le_floor (by linarith)
    have h2 : (⌊(201 : ℚ)/2⌋ : ℤ) = 100 := by norm_num
    omega
  refine ⟨(Int.floor (q * 100 + 1/2)).toNat, by omega, ?_⟩
  unfold round2
  congr 1
  exact_mod_cast (Int.toNat_of_nonneg hf0).symm

theorem archetypeBonus_nonneg (f : FeatureVector) (t : String) :
    0 ≤ archetypeBonus f t := by
  unfold archetypeBonus
  split <;> (try split) <;> norm_num

theorem score_in_range (b bo : ℚ) (hb : 1/10 ≤ b) (hbo : 0 ≤ bo) :
    0 ≤ round2 (min 1 (b + bo)) ∧ round2 (min 1 (b + bo)) ≤ 1 ∧
      ∃ k : ℕ, k ≤ 100 ∧ round2 (min 1 (b + bo)) = (k : ℚ) / 100 := by
  have h0 : 0 ≤ min 1 (b + bo) := le_min (by norm_num) (by linarith)
  have h1 : min 1 (b + bo) ≤ 1 := min_le_left _ _
  have hr0 : round2 0 = 0 := by norm_num [round2]
  have hr1 : round2 1 = 1 := by norm_num [round2]
  refine ⟨?_, ?_, round2_exists_nat _ h0 h1⟩
  · have h2 := round2_mono h0
    rwa [hr0] at h2
  · have h2 := round2_mono h1
    rwa [hr1] at h2

theorem simulateModelPrediction_unfold (f : FeatureVector) (base : ℕ → ℚ) :
    simulateModelPrediction f base =
      [("Lawnmower", round2 (min 1 (base 0 + archetypeBonus f "Lawnmower"))),
       ("Traffic", round2 (min 1 (base 1 + archetypeBonus f "Traffic"))),
       ("Construction", round2 (min 1 (base 2 + archetypeBonus f "Construction"))),
       ("Fan/HVAC", round2 (min 1 (base 3 + archetypeBonus f "Fan/HVAC"))),
       ("Crowd", round2 (min 1 (base 4 + archetypeBonus f "Crowd"))),
       ("Wind", round2 (min 1 (base 5 + archetypeBonus f "Wind")))] := rfl

/-- Claim C7: for every feature vector and base-score draws in
[0.1, 0.3), every confidence score is in [0, 1] and is an integer
multiple of 1/100 (two-decimal rounding of the clamped raw score). -/
theorem confidence_scores_range (f : FeatureVector) (base : ℕ → ℚ)
    (hb : ∀ i, i < 6 → 1/10 ≤ base i ∧ base i < 3/10) :
    ∀ p ∈ simulateModelPrediction f base,
      0 ≤ p.2 ∧ p.2 ≤ 1 ∧ ∃ k : ℕ, k ≤ 100 ∧ p.2 = (k : ℚ) / 100 := by
  rw [simulateModelPrediction_unfold]
  intro p hp
  simp only [List.mem_cons, List.not_mem_nil, or_false] at hp
  rcases hp with rfl|rfl|rfl|rfl|rfl|rfl <;>
    exact score_in_range _ _ (hb _ (by norm_num)).1 (archetypeBonus_nonneg f _)

theorem wind_bonus_le (f : FeatureVector) : archetypeBonus f "Wind" ≤ 0.4 := by
  simp only [archetypeBonus]
  split <;> norm_num

theorem foldl_select_skip (l : List (String × ℚ)) (acc : String × ℚ)
    (h : ∀ p ∈ l, ¬ p.2 > acc.2) :
    l.foldl (fun acc p => if p.2 > acc.2 then p else acc) acc = acc := by
  induction l with
  | nil => rfl
  | cons x xs ih =>
    rw [List.foldl_cons, if_neg (h x (List.mem_cons_self x xs))]
    exact ih (fun p hp => h p (List.mem_cons_of_mem x hp))

theorem foldl_select_le (l : List (String × ℚ)) (b : ℚ) :
    ∀ acc : String × ℚ, acc.2 ≤ b → (∀ p ∈ l, p.2 ≤ b) →
    (l.foldl (fun acc p => if p.2 > acc.2 then p else acc) acc).2 ≤ b := by
  induction l with
  | nil => intro acc hacc _; exact hacc
  | cons x xs ih =>
    intro acc hacc h
    rw [List.foldl_cons]
    refine ih _ ?_ (fun p hp => h p (List.mem_cons_of_mem x hp))
    show (if x.2 > acc.2 then x else acc).2 ≤ b
    split
    · exact h x (List.mem_cons_self x xs)
    · exact hacc

theorem selectLabel_six (t0 t1 t2 t3 t4 t5 : String) (a b c d e g : ℚ)
    (ha : a ≤ 3/10) (hb : b ≤ 3/10) (hc : c ≤ 3/10)
    (hd : 7/10 ≤ d) (he : e ≤ 3/10) (hg : g ≤ 7/10) :
    selectLabel [(t0, a), (t1, b), (t2, c), (t3, d), (t4, e), (t5, g)] = (t3, d) := by
  have hsplit : [(t0, a), (t1, b), (t2, c), (t3, d), (t4, e), (t5, g)]
      = ([(t0, a), (t1, b), (t2, c)] ++ [(t3, d)]) ++ [(t4, e), (t5, g)] := rfl
  rw [selectLabel, hsplit, List.foldl_append, List.foldl_append]
  have h3 : (List.foldl (fun acc p => if p.2 > acc.2 then p else acc) ("", 0)
      [(t0, a), (t1, b), (t2, c)]).2 ≤ 3/10 := by
    refine foldl_select_le _ _ _ (by norm_num) ?_
    intro p hp
    simp only [List.mem_cons, List.not_mem_nil, or_false] at hp
    rcases hp with rfl | rfl | rfl <;> assumption
  rw [show List.foldl (fun (acc p : String × ℚ) => if p.2 > acc.2 then p else acc)
      (List.foldl (fun acc p => if p.2 > acc.2 then p else acc) ("", 0)
        [(t0, a), (t1, b), (t2, c)]) [(t3, d)]
      = (t3, d) by
    rw [List.foldl_cons, List.foldl_nil, if_pos (by linarith)]]
  refine foldl_select_skip _ _ ?_
  intro p hp
  simp only [List.mem_cons, List.not_mem_nil, or_false] at hp
  rcases hp with rfl | rfl <;> simp only [not_lt] <;> linarith

theorem fan_argmax_helper (s : Signal) (flat : ℚ) (base : ℕ → ℚ)
    (h1 : (extractFeatures s flat).periodicity > 0.6)
    (h2 : (extractFeatures s flat).energy < 0.1)
    (h3 : (extractFeatures s flat).zeroCrossings < 0.2)
    (hb : ∀ i, i < 6 → 1/10 ≤ base i ∧ base i < 3/10) :
    selectLabel (simulateModelPrediction (extractFeatures s flat) base)
      = ("Fan/HVAC", round2 (min 1 (base 3 + 0.6))) := by
  set f := extractFeatures s flat with hf
  have hL : archetypeBonus f "Lawnmower" = 0 := by
    simp only [archetypeBonus]
    rw [if_neg]
    rintro ⟨ha, -⟩
    linarith
  have hT : archetypeBonus f "Traffic" = 0 := by
    simp only [archetypeBonus]
    rw [if_neg]
    rintro ⟨-, -, hc⟩
    linarith
  have hC : archetypeBonus f "Construction" = 0 := by
    simp only [archetypeBonus]
    rw [if_neg]
    rintro ⟨ha, -⟩
    linarith
  have hF : archetypeBonus f "Fan/HVAC" = 0.6 := by
    simp only [archetypeBonus]
    rw [if_pos ⟨h2, h3, h1⟩]
  have hCr : archetypeBonus f "Crowd" = 0 := by
    simp only [archetypeBonus]
    rw [if_neg]
    intro hc
    linarith
  have hW := wind_bonus_le f
  have hWn := archetypeBonus_nonneg f "Wind"
  have hb0 := hb 0 (by norm_num)
  have hb1 := hb 1 (by norm_num)
  have hb2 := hb 2 (by norm_num)
  have hb3 := hb 3 (by norm_num)
  have hb4 := hb 4 (by norm_num)
  have hb5 := hb 5 (by norm_num)
  have hr01 : round2 (1/10 : ℚ) = 1/10 := by norm_num [round2]
  have hr03 : round2 (3/10 : ℚ) = 3/10 := by norm_num [round2]
  have hr07 : round2 (7/10 : ℚ) = 7/10 := by norm_num [round2]
  have upper : ∀ i : ℕ, 1/10 ≤ base i → base i < 3/10 →
      round2 (min 1 (base i + 0)) ≤ 3/10 := by
    intro i hi1 hi2
    have h4 := round2_mono (le_trans (min_le_right 1 (base i + 0)) (by linarith : base i + 0 ≤ 3/10))
    rwa [hr03] at h4
  have u0 := upper 0 hb0.1 hb0.2
  have u1 := upper 1 hb1.1 hb1.2
  have u2 := upper 2 hb2.1 hb2.2
  have u4 := upper 4 hb4.1 hb4.2
  have l3 : 7/10 ≤ round2 (min 1 (base 3 + 0.6)) := by
    have h4 := round2_mono (le_min (by norm_num : (7:ℚ)/10 ≤ 1) (by linarith : 7/10 ≤ base 3 + 0.6))
    rwa [hr07] at h4
  have u5 : round2 (min 1 (base 5 + archetypeBonus f "Wind")) ≤ 7/10 := by
    have h4 := round2_mono (le_trans (min_le_right 1 (base 5 + archetypeBonus f "Wind"))
      (by linarith : base 5 + archetypeBonus f "Wind" ≤ 7/10))
    rwa [hr07] at h4
  rw [simulateModelPrediction_unfold, hL, hT, hC, hF, hCr]
  exact selectLabel_six _ _ _ _ _ _ _ _ _ _ _ _ u0 u1 u2 l3 u4 u5

theorem getD_replicate (m k : ℕ) (c : ℚ) (h : k < m) :
    (List.replicate m c).getD k 0 = c := by
  induction m generalizing k with
  | zero => omega
  | succ m ih =>
    cases k with
    | zero => rfl
    | succ k => exact ih k (by omega)

theorem foldl_sq_replicate (m : ℕ) (c : ℚ) :
    ∀ a : ℚ, (List.replicate m c).foldl (fun a v => a + v * v) a = a + m * (c * c) := by
  induction m with
  | zero => intro a; simp
  | succ m ih =>
    intro a
    show (List.replicate m c).foldl _ (a + c * c) = _
    rw [ih]
    push_cast
    ring

theorem zeroCrossCount_replicate (m : ℕ) (c : ℚ) (hc : 0 ≤ c) :
    zeroCrossCount (List.replicate m c) = 0 := by
  rw [zeroCrossCount]
  refine foldl_count_zero _ _ ?_
  intro i hi
  rw [List.length_replicate] at hi
  have hmem := List.mem_range'_1.mp hi
  have h1 : (List.replicate m c).getD i 0 = c := getD_replicate m i c (by omega)
  have h2 : (List.replicate m c).getD (i - 1) 0 = c := getD_replicate m (i - 1) c (by omega)
  rw [h1, h2]
  rintro (⟨-, hlt⟩ | ⟨hlt, -⟩) <;> linarith

theorem sum_ite_lt (N K : ℕ) (hK : K ≤ N) (x : ℚ) :
    (∑ i in Finset.range N, if i < K then x else 0) = (K : ℚ) * x := by
  rw [← Finset.sum_filter]
  have h : (Finset.range N).filter (fun i => i < K) = Finset.range K := by
    ext i
    simp only [Finset.mem_filter, Finset.mem_range]
    omega
  rw [h, Finset.sum_const, Finset.card_range, nsmul_eq_mul]

theorem correlationAt_replicate (c : ℚ) (lag : ℕ) (hlag : 1 ≤ lag) (hlag2 : lag ≤ 1024) :
    correlationAt (List.replicate 1024 c) lag = ((1024 - lag : ℕ) : ℚ) * (c * c) := by
  rw [correlationAt_eq_sum, List.length_replicate]
  have h : ∀ i ∈ Finset.range 1024,
      (if i + lag < 1024 then
        (List.replicate 1024 c).getD i 0 * (List.replicate 1024 c).getD (i + lag) 0 else 0)
      = (if i < 1024 - lag then c * c else 0) := by
    intro i _
    by_cases hi : i + lag < 1024
    · rw [if_pos hi, if_pos (by omega), getD_replicate _ _ _ (by omega),
        getD_replicate _ _ _ (by omega)]
    · rw [if_neg hi, if_neg (by omega)]
  rw [Finset.sum_congr rfl h, sum_ite_lt _ _ (by omega)]


set_option maxRecDepth 10000 in
theorem sum_Ico_reflect_nat : (∑ lag in Finset.Ico 1 1024, (1024 - lag)) = 523776 := by decide

theorem sumCorrelation_replicate (c : ℚ) :
    sumCorrelation (List.replicate 1024 c) = 523776 * (c * c) := by
  rw [sumCorrelation_eq_sum]
  have h : ∀ lag ∈ Finset.Ico 1 1024,
      |correlationAt (List.replicate 1024 c) lag| = ((1024 - lag : ℕ) : ℚ) * (c * c) := by
    intro lag hlag
    rw [Finset.mem_Ico] at hlag
    rw [correlationAt_replicate c lag hlag.1 (by omega),
      abs_of_nonneg (mul_nonneg (by positivity) (mul_self_nonneg c))]
  rw [Finset.sum_congr rfl h, ← Finset.sum_mul, ← Nat.cast_sum, sum_Ico_reflect_nat]
  norm_num

theorem extractFeatures_replicate (c : ℚ) (hc : 0 ≤ c) (r : ℚ) :
    extractFeatures (List.replicate 1024 c) r
      = { energy := c * c,
          zeroCrossings := 0,
          spectralCentroid := 0,
          spectralFlatness := r * 0.5 + 0.2,
          periodicity := 523776 * (c * c) / 1024 } := by
  unfold extractFeatures
  refine FeatureVector.ext ?_ ?_ ?_ ?_ ?_
  · show (List.replicate 1024 c).foldl (fun a v => a + v * v) 0 / ((List.replicate 1024 c).length : ℚ) = c * c
    rw [foldl_sq_replicate, List.length_replicate]
    norm_num
  · show ((zeroCrossCount (List.replicate 1024 c) : ℚ)) / ((List.replicate 1024 c).length : ℚ) = 0
    rw [zeroCrossCount_replicate 1024 c hc]
    norm_num
  · show ((zeroCrossCount (List.replicate 1024 c) : ℚ)) / ((List.replicate 1024 c).length : ℚ) * 10000 = 0
    rw [zeroCrossCount_replicate 1024 c hc]
    norm_num
  · rfl
  · show sumCorrelation (List.replicate 1024 c) / 1024 = _
    rw [sumCorrelation_replicate]

/-- Claim C1: for every input of length N, step size and filter length
L >= 1, the applyLMSFilter recursion emits exactly the per-sample state
machine of the spec: shift the delay line and insert the current sample at
index 0, y = full dot product of weights and delay line,
e = x(n) + prevOutput is emitted, prevOutput becomes y, and every weight
is updated by -mu * e * delayLine[k]; the output has length N. -/
theorem lms_state_machine (mu : ℚ) (L : ℕ) (input : Signal) (hL : 1 ≤ L) :
    runLMS mu L input = specRunLMS mu L input ∧
    (runLMS mu L input).length = input.length :=
  ⟨runLMS_eq_specRunLMS mu L input hL, runLMS_length mu L input⟩

/-- Claim C3: every post-processed signal has peak absolute amplitude at
most 0.9: when the smoothed peak exceeds 0.9 every sample is scaled by
0.9/peak, and when it does not the normalization leaves the signal
untouched. -/
theorem amplitude_bound (s : Signal) :
    peakAmplitude (applyPostProcessing s) ≤ 0.9 ∧
    (0.9 < peakAmplitude (movingAverage s) →
      applyPostProcessing s = (movingAverage s).map
        (fun x => x * (0.9 / peakAmplitude (movingAverage s)))) ∧
    (peakAmplitude (movingAverage s) ≤ 0.9 → applyPostProcessing s = movingAverage s) :=
  ⟨postProcessing_peak_le s, (postProcessing_cases s).1, (postProcessing_cases s).2⟩

/-- Witness for the claim C1 theorem at mu = 1/2, L = 2, input [1, 2, 3]. -/
theorem lms_state_machine_witness :
    runLMS (1/2) 2 [1, 2, 3] = specRunLMS (1/2) 2 [1, 2, 3] ∧
    (runLMS (1/2) 2 [1, 2, 3]).length = ([1, 2, 3] : Signal).length :=
  lms_state_machine (1/2) 2 [1, 2, 3] (by norm_num)

/-- Witness for the claim C3 theorem on the one-sample signal [1], whose
smoothed peak 1 exceeds 0.9, so the scaling branch fires. -/
theorem amplitude_bound_witness : (0.9:ℚ) < peakAmplitude (movingAverage [1]) ∧
    applyPostProcessing [1] = (movingAverage [1]).map
      (fun x => x * (0.9 / peakAmplitude (movingAverage [1]))) := by
  have hp : (0.9:ℚ) < peakAmplitude (movingAverage [1]) := by
    simp [movingAverage, peakAmplitude, List.range_succ]
    norm_num
  exact ⟨hp, (amplitude_bound [1]).2.1 hp⟩

/-- Witness for the claim C6 theorem on an eight-sample signal: index 0 is
a boundary index and index 3 an interior one. -/
theorem movingAverage_frame_effect_witness : (movingAverage [1, 2, 3, 4, 5, 6, 7, 8]).length = ([1, 2, 3, 4, 5, 6, 7, 8] : Signal).length ∧
    (movingAverage [1, 2, 3, 4, 5, 6, 7, 8]).getD 0 0 = ([1, 2, 3, 4, 5, 6, 7, 8] : Signal).getD 0 0 ∧
    (movingAverage [1, 2, 3, 4, 5, 6, 7, 8]).getD 3 0
      = (∑ j in Finset.range 7, ([1, 2, 3, 4, 5, 6, 7, 8] : Signal).getD (3 + j - 3) 0) / 7 :=
  ⟨(movingAverage_frame_effect [1, 2, 3, 4, 5, 6, 7, 8]).1,
   (movingAverage_frame_effect [1, 2, 3, 4, 5, 6, 7, 8]).2.1 0 (by norm_num) (Or.inl (by norm_num)),
   (movingAverage_frame_effect [1, 2, 3, 4, 5, 6, 7, 8]).2.2 3 (by norm_num) (by norm_num)⟩

/-- Witness for the claim C7 theorem: the all-zero feature vector, constant
base draw 1/5, and the first entry of the resulting confidence list. -/
theorem confidence_scores_range_witness : 0 ≤ (("Lawnmower",
      round2 (min 1 ((fun _ : ℕ => (1:ℚ)/5) 0
        + archetypeBonus ⟨0, 0, 0, 0, 0⟩ "Lawnmower"))) : String × ℚ).2 ∧
    (("Lawnmower", round2 (min 1 ((fun _ : ℕ => (1:ℚ)/5) 0
        + archetypeBonus ⟨0, 0, 0, 0, 0⟩ "Lawnmower"))) : String × ℚ).2 ≤ 1 ∧
    ∃ k : ℕ, k ≤ 100 ∧ (("Lawnmower", round2 (min 1 ((fun _ : ℕ => (1:ℚ)/5) 0
        + archetypeBonus ⟨0, 0, 0, 0, 0⟩ "Lawnmower"))) : String × ℚ).2 = (k : ℚ) / 100 :=
  confidence_scores_range ⟨0, 0, 0, 0, 0⟩ (fun _ => 1/5)
    (fun i _ => ⟨by norm_num, by norm_num⟩)
    ("Lawnmower", round2 (min 1 ((fun _ : ℕ => (1:ℚ)/5) 0
      + archetypeBonus ⟨0, 0, 0, 0, 0⟩ "Lawnmower")))
    (by rw [simulateModelPrediction_unfold]; exact List.mem_cons_self _ _)

/-- Witness for the claim C9 theorem on a two-channel buffer, channel 1. -/
theorem channel_independence_witness : 1 < (AudioBuffer.mk 44100 [[1], [2]]).channels.length ∧
    (processAudioBuffer (AudioBuffer.mk 44100 [[1], [2]]) "lawnmower").channels.getD 1 []
      = getChannelData (processAudioBuffer
          ⟨(AudioBuffer.mk 44100 [[1], [2]]).sampleRate,
           [getChannelData (AudioBuffer.mk 44100 [[1], [2]]) 1]⟩ "lawnmower") 0 :=
  ⟨by decide, channel_independence (AudioBuffer.mk 44100 [[1], [2]]) "lawnmower" 1 (by decide)⟩

/-- Witness for the claim C10 theorem: two buffers sharing channel 0 but
with different sample rates and channel counts. -/
theorem classification_uses_only_channel0_witness : getChannelData (AudioBuffer.mk 44100 [[1], [2]]) 0
      = getChannelData (AudioBuffer.mk 48000 [[1]]) 0 ∧
    classifyNoise (AudioBuffer.mk 44100 [[1], [2]]) 0 (fun _ => 1/5)
      = classifyNoise (AudioBuffer.mk 48000 [[1]]) 0 (fun _ => 1/5) :=
  ⟨rfl, classification_uses_only_channel0 _ _ 0 (fun _ => 1/5) rfl⟩

/-- Claim C5 (amended): whenever the extracted features of channel 0
satisfy periodicity > 0.6, energy < 0.1 and zeroCrossings < 0.2, and all
six base draws lie in [0.1, 0.3), the classifier selects "Fan/HVAC" with
reported score round2 (min 1 (base + 0.6)); Fan/HVAC need not be the only
matching predicate (Wind may also match), but it wins the strict-greater
first-max scan. -/
theorem fan_hvac_selected (b : AudioBuffer) (flat : ℚ) (base : ℕ → ℚ)
    (h1 : (extractFeatures (getChannelData b 0) flat).periodicity > 0.6)
    (h2 : (extractFeatures (getChannelData b 0) flat).energy < 0.1)
    (h3 : (extractFeatures (getChannelData b 0) flat).zeroCrossings < 0.2)
    (hb : ∀ i, i < 6 → 1/10 ≤ base i ∧ base i < 3/10) :
    (classifyNoise b flat base).2.2 = "Fan/HVAC" ∧
    selectLabel (simulateModelPrediction (extractFeatures (getChannelData b 0) flat) base)
      = ("Fan/HVAC", round2 (min 1 (base 3 + 0.6))) := by
  have hmain := fan_argmax_helper (getChannelData b 0) flat base h1 h2 h3 hb
  refine ⟨?_, hmain⟩
  show (selectLabel (simulateModelPrediction
    (extractFeatures (getChannelData b 0) flat) base)).1 = "Fan/HVAC"
  rw [hmain]

/-- Counterexample for claim C5 as stated: the constant signal of 1024
samples of value 1/10 lies in the claimed feature region (periodicity
5.115 > 0.6, energy 0.01 < 0.1, zeroCrossings 0 < 0.2), yet the Wind
threshold predicate fires (bonus 0.4) in addition to the Fan/HVAC one, so
Fan/HVAC is not the only archetype whose predicate matches. -/
theorem fan_hvac_only_match_refuted :
    (extractFeatures (List.replicate 1024 (1/10)) 0).periodicity > 0.6 ∧
    (extractFeatures (List.replicate 1024 (1/10)) 0).energy < 0.1 ∧
    (extractFeatures (List.replicate 1024 (1/10)) 0).zeroCrossings < 0.2 ∧
    archetypeBonus (extractFeatures (List.replicate 1024 (1/10)) 0) "Fan/HVAC" = 0.6 ∧
    archetypeBonus (extractFeatures (List.replicate 1024 (1/10)) 0) "Wind" = 0.4 := by
  have h := extractFeatures_replicate (1/10) (by norm_num) 0
  rw [h]
  refine ⟨by norm_num, by norm_num, by norm_num, ?_, ?_⟩
  · norm_num [archetypeBonus]
  · norm_num [archetypeBonus]

/-- Witness for the claim C5 theorem on a concrete one-channel buffer
holding the constant signal of 1024 samples of value 1/10. -/
theorem fan_hvac_selected_witness :
    (classifyNoise (AudioBuffer.mk 44100 [List.replicate 1024 (1/10)]) 0 (fun _ => 1/5)).2.2
      = "Fan/HVAC" ∧
    selectLabel (simulateModelPrediction
        (extractFeatures (getChannelData (AudioBuffer.mk 44100 [List.replicate 1024 (1/10)]) 0) 0)
        (fun _ => 1/5))
      = ("Fan/HVAC", round2 (min 1 ((1:ℚ)/5 + 0.6))) := by
  have hch : getChannelData (AudioBuffer.mk 44100 [List.replicate 1024 (1/10)]) 0
      = List.replicate 1024 ((1:ℚ)/10) := rfl
  have hf := extractFeatures_replicate (1/10) (by norm_num) 0
  refine fan_hvac_selected _ 0 (fun _ => 1/5) ?_ ?_ ?_ ?_
  · rw [hch, hf]
    norm_num
  · rw [hch, hf]
    norm_num
  · rw [hch, hf]
    norm_num
  · intro i _
    exact ⟨by norm_num, by norm_num⟩

end Whisperwave
